import Mathlib

/-!
Shallow embedding of the repository's two modules and standalone utilities:
the panchayat election tracker (`src/12-panchayat-election.js`) and the
festival manager (the unnamed festival-planner source file).

JavaScript modelling conventions used throughout:
* primitive JS values that the code inspects with truthiness or `typeof`
  are modelled by the inductive `JSVal` (numbers as `Int`: every number the
  code manipulates is an integer);
* plain objects used as string-keyed maps are association lists in
  insertion order; property assignment `o[k] = v` overwrites the existing
  entry in place or appends a new one, matching JS property-order rules;
* `Set` is a duplicate-free list in insertion order;
* `Array.prototype.sort(cmp)` is modelled as the stable `insertionSort`
  with the relation `cmp a b ≤ 0` (ES2019 sorts are stable, and for the
  consistent comparators appearing in this code the stable result is
  unique);
* a function argument that may be absent (`typeof f === "function"` guard)
  is an `Option`; the JS value `undefined` returned by the no-op fallback
  is `Option.none` of the callback result type;
* closure-private state is passed explicitly: each method takes the
  private state and returns its result together with the updated state.
-/

/-- A primitive JavaScript value, as far as the sources inspect one:
`undefined`, `null`, booleans, (integer) numbers and strings. -/
inductive JSVal where
  | undefined : JSVal
  | null : JSVal
  | boolean (b : Bool) : JSVal
  | number (n : Int) : JSVal
  | string (s : String) : JSVal
deriving DecidableEq, Repr

/-- JS truthiness of a primitive value. -/
def JSVal.truthy : JSVal → Bool
  | .undefined => false
  | .null => false
  | .boolean b => b
  | .number n => n != 0
  | .string s => s != ""

/-- `typeof v === "number"`. -/
def JSVal.isNumber : JSVal → Bool
  | .number _ => true
  | _ => false

/-- `typeof v === "string"`. -/
def JSVal.isString : JSVal → Bool
  | .string _ => true
  | _ => false

/-- Property read `o[k]` on a string-keyed object: value of the first
entry with key `k`. -/
def lookupA {α : Type} (l : List (String × α)) (k : String) : Option α :=
  (l.find? (fun p => p.1 = k)).map (fun p => p.2)

/-- Property write `o[k] = v`: overwrite the first entry with key `k` in
place, or append a new entry (JS keeps the original property position on
overwrite). -/
def setAssoc {α : Type} (l : List (String × α)) (k : String) (v : α) :
    List (String × α) :=
  match l with
  | [] => [(k, v)]
  | p :: rest => if p.1 = k then (k, v) :: rest else p :: setAssoc rest k v

/-- `Set.prototype.add`: append if absent. -/
def setAdd (l : List String) (x : String) : List String :=
  if x ∈ l then l else l ++ [x]

/-- `Array.prototype.sort(cmp)` with a JS comparator returning an integer:
stable sort placing `a` before `b` when `cmp a b ≤ 0`. -/
def jsSort {α : Type} (cmp : α → α → Int) (l : List α) : List α :=
  l.insertionSort (fun a b => cmp a b ≤ 0)

/-- Lexicographic (code-unit) order on character lists, as a boolean:
the executable form of JS string `<`. -/
def charListLt : List Char → List Char → Bool
  | _, [] => false
  | [], _ :: _ => true
  | a :: as, b :: bs =>
      if a < b then true else if b < a then false else charListLt as bs

/-- JS string comparison `a < b` (code-unit lexicographic). -/
def strLtB (a b : String) : Bool :=
  charListLt a.data b.data

/-- JS string comparison `a <= b`, i.e. `!(b < a)`. -/
def strLeB (a b : String) : Bool :=
  !(strLtB b a)

/-! ## Election tracker (`createElection` and its closure methods) -/

/-- A candidate record `{ id, name, party }`. -/
structure Candidate where
  id : String
  name : String
  party : String
deriving DecidableEq, Repr

/-- A voter argument that is a non-null object: its `id` property (a
string, `""` for a falsy id) and its `age` property. The `name` property
is never read by the code and is omitted. -/
structure RegVoter where
  id : String
  age : JSVal
deriving DecidableEq, Repr

/-- The payload `{ voterId, candidateId }` passed to a success callback. -/
structure VoteOk where
  voterId : String
  candidateId : String
deriving DecidableEq, Repr

/-- A row `{ id, name, party, votes }` of `getResults`. -/
structure ResultRow where
  id : String
  name : String
  party : String
  votes : Int
deriving DecidableEq, Repr

/-- The closure-private state of one election instance: `candidateMap`,
`votes`, `registered`, `voted`. -/
structure ElectionState where
  candidateMap : List (String × Candidate)
  votes : List (String × Int)
  registered : List String
  voted : List String
deriving DecidableEq, Repr

/-- `createElection(candidates)`. The argument is `none` when the caller
passed a non-array (the code then replaces it by `[]`); an element is
`none` when it is falsy (`if (c && c.id)` skips it), and an element with
an empty `id` is likewise skipped. -/
def createElection (candidates : Option (List (Option Candidate))) :
    ElectionState :=
  (candidates.getD []).foldl
    (fun st c =>
      match c with
      | some cand =>
          if cand.id ≠ "" then
            { st with
              candidateMap := setAssoc st.candidateMap cand.id cand
              votes := setAssoc st.votes cand.id 0 }
          else st
      | none => st)
    ⟨[], [], [], []⟩

/-- `registerVoter(voter)`. The argument is `none` when `voter` is falsy
or not an object. Returns the boolean result and the updated state. -/
def registerVoter (st : ElectionState) (voter : Option RegVoter) :
    Bool × ElectionState :=
  match voter with
  | none => (false, st)
  | some v =>
      match v.age with
      | JSVal.number a =>
          if v.id = "" ∨ a < 18 ∨ v.id ∈ st.registered then (false, st)
          else (true, { st with registered := setAdd st.registered v.id })
      | _ => (false, st)

/-- `castVote(voterId, candidateId, onSuccess, onError)`. A handler is
`none` when the caller did not pass a function there; the no-op fallback
returns `undefined`, i.e. `none` of the result type. Returns the invoked
handler's value and the updated state. -/
def castVote {β : Type} (st : ElectionState) (voterId candidateId : String)
    (onSuccess : Option (VoteOk → Option β))
    (onError : Option (String → Option β)) :
    Option β × ElectionState :=
  let successCb : VoteOk → Option β := onSuccess.getD (fun _ => none)
  let errorCb : String → Option β := onError.getD (fun _ => none)
  if voterId ∉ st.registered then (errorCb "voter_not_registered", st)
  else if lookupA st.candidateMap candidateId = none then
    (errorCb "candidate_not_found", st)
  else if voterId ∈ st.voted then (errorCb "already_voted", st)
  else
    (successCb ⟨voterId, candidateId⟩,
     { st with
       votes := setAssoc st.votes candidateId
         ((lookupA st.votes candidateId).getD 0 + 1)
       voted := setAdd st.voted voterId })

/-- The rows built by the `for (let id in candidateMap)` loop of
`getResults`, in candidate-map iteration (insertion) order. -/
def resultsOf (st : ElectionState) : List ResultRow :=
  st.candidateMap.map
    (fun p => ⟨p.2.id, p.2.name, p.2.party, (lookupA st.votes p.1).getD 0⟩)

/-- `getResults(sortFn)`: build one row per candidate, then sort with the
given comparator, or by `(a, b) => b.votes - a.votes` by default. -/
def getResults (st : ElectionState)
    (sortFn : Option (ResultRow → ResultRow → Int)) : List ResultRow :=
  let results := resultsOf st
  match sortFn with
  | some f => jsSort f results
  | none => jsSort (fun a b => b.votes - a.votes) results

/-- `getWinner()`: scan `votes` in iteration order keeping the first
strictly-greater count, starting from `maxVotes = 0`; return `null` when
the final maximum is `0`. -/
def getWinner (st : ElectionState) : Option Candidate :=
  let r := st.votes.foldl
    (fun acc p => if acc.2 < p.2 then (lookupA st.candidateMap p.1, p.2) else acc)
    ((none : Option Candidate), (0 : Int))
  if r.2 = 0 then none else r.1

/-! ## Vote validator factory -/

/-- A `{ valid, reason }` result object. -/
structure ValidationResult where
  valid : Bool
  reason : String
deriving DecidableEq, Repr

/-- The `rules` argument of `createVoteValidator`: `minAge` is `none` when
absent or nullish, `requiredFields` is `none` when not an array. -/
structure ValidatorRules where
  minAge : Option Int
  requiredFields : Option (List String)
deriving DecidableEq, Repr

/-- A voter argument that is a non-null object: its enumerable properties
as an association list. -/
abbrev JSObj := List (String × JSVal)

/-- The `in` operator: `field in voter`. -/
def hasField (o : JSObj) (k : String) : Bool :=
  o.any (fun p => p.1 = k)

/-- Property read returning `undefined` for an absent key. -/
def getField (o : JSObj) (k : String) : JSVal :=
  ((o.find? (fun p => p.1 = k)).map (fun p => p.2)).getD JSVal.undefined

/-- The `for` loop of the returned validator: the first required field not
present in the voter object. -/
def checkRequired (required : List String) (v : JSObj) : Option String :=
  match required with
  | [] => none
  | field :: rest =>
      if ¬ hasField v field then some field else checkRequired rest v

/-- `createVoteValidator(rules)`: the returned validation closure. The
voter argument is `none` when falsy or not an object. -/
def createVoteValidator (rules : Option ValidatorRules) :
    Option JSObj → ValidationResult :=
  let minAge : Int := (rules.bind ValidatorRules.minAge).getD 18
  let required : List String :=
    (rules.bind ValidatorRules.requiredFields).getD []
  fun voter =>
    match voter with
    | none => ⟨false, "invalid_voter"⟩
    | some v =>
        match checkRequired required v with
        | some field => ⟨false, "missing_" ++ field⟩
        | none =>
            match getField v "age" with
            | JSVal.number a =>
                if a < minAge then ⟨false, "underage"⟩ else ⟨true, ""⟩
            | _ => ⟨false, "underage"⟩

/-- Stated from the spec sentence for C7 (refinement target): check the
required fields in list order via `find?`, then numeric age ≥ minAge. -/
def claimVoteValidator (rules : Option ValidatorRules)
    (voter : Option JSObj) : ValidationResult :=
  let minAge : Int := (rules.bind ValidatorRules.minAge).getD 18
  let required : List String :=
    (rules.bind ValidatorRules.requiredFields).getD []
  match voter with
  | none => ⟨false, "invalid_voter"⟩
  | some v =>
      match required.find? (fun field => ¬ hasField v field) with
      | some field => ⟨false, "missing_" ++ field⟩
      | none =>
          match getField v "age" with
          | JSVal.number a =>
              if minAge ≤ a then ⟨true, ""⟩ else ⟨false, "underage"⟩
          | _ => ⟨false, "underage"⟩

/-! ## Recursive region vote counter -/

/-- A region-tree argument: `nonObject` for `null`/non-object input, and
`node votes subRegions` for an object whose `votes` property is an integer
or not a number (`none`), and whose `subRegions` property is an array or
not one (`none`). -/
inductive RegionVal where
  | nonObject : RegionVal
  | node (votes : Option Int) (subRegions : Option (List RegionVal)) : RegionVal

mutual

/-- `countVotesInRegions(regionTree)`. -/
def countVotesInRegions : RegionVal → Int
  | .nonObject => 0
  | .node votes subs =>
      match subs with
      | some l => countVotesAux (votes.getD 0) l
      | none => votes.getD 0

/-- The `for` loop over `subRegions`, accumulating into `total`. -/
def countVotesAux : Int → List RegionVal → Int
  | total, [] => total
  | total, r :: rest => countVotesAux (total + countVotesInRegions r) rest

end

/-! ## Pure tally updater

`tallyPure` is specified as never mutating its argument, so object
identity matters here: tally objects live in an explicit store of
references, the argument is a reference (or `none` for an invalid,
non-object argument), and the function allocates exactly one new object. -/

/-- A tally object: candidate-id keys with integer counts. -/
abbrev TallyObj := List (String × Int)

/-- A store of allocated tally objects, addressed by index. -/
structure Store where
  objs : List TallyObj
deriving DecidableEq, Repr

/-- Dereference (an out-of-range reference yields the empty object; the
theorems only use in-range references). -/
def Store.deref (h : Store) (r : Nat) : TallyObj :=
  h.objs[r]?.getD []

/-- The base object `tallyPure` starts from: the dereferenced argument for
a valid reference, the empty object when the argument is not a valid
mapping (falsy or not an object). -/
def tallyBase (h : Store) (currentTally : Option Nat) : TallyObj :=
  match currentTally with
  | some r => Store.deref h r
  | none => []

/-- `tallyPure(currentTally, candidateId)`: spread the base object into a
freshly allocated copy, then increment `candidateId` on the copy unless it
is falsy. Returns the updated store and the new object's reference. -/
def tallyPure (h : Store) (currentTally : Option Nat) (candidateId : String) :
    Store × Nat :=
  let base : TallyObj := tallyBase h currentTally
  let newTally : TallyObj :=
    if candidateId = "" then base
    else setAssoc base candidateId ((lookupA base candidateId).getD 0 + 1)
  (⟨h.objs ++ [newTally]⟩, h.objs.length)

/-! ## Festival manager (`createFestivalManager` closure state) -/

/-- A festival record `{ name, date, type }`. -/
structure Festival where
  name : String
  date : String
  type : String
deriving DecidableEq, Repr

/-- The private `validTypes` set. -/
def validTypes : List String := ["religious", "national", "cultural"]

/-- The regular expression `^\d{4}-\d{2}-\d{2}$`. -/
def matchesDatePattern (s : String) : Bool :=
  match s.data with
  | [y1, y2, y3, y4, h1, m1, m2, h2, d1, d2] =>
      y1.isDigit && y2.isDigit && y3.isDigit && y4.isDigit &&
      h1 = '-' && m1.isDigit && m2.isDigit && h2 = '-' &&
      d1.isDigit && d2.isDigit
  | _ => false

/-- `isValidDateStr(d)`: a string matching the date pattern. -/
def isValidDateStr (d : JSVal) : Bool :=
  match d with
  | JSVal.string s => matchesDatePattern s
  | _ => false

/-- `addFestival(name, date, type)` on the private `festivals` list.
Non-string arguments fail the respective validation (`!name || typeof
name !== "string"`, `isValidDateStr`, `validTypes.has`). Returns the new
count or `-1`, with the updated list. -/
def addFestival (festivals : List Festival) (name date ty : JSVal) :
    Int × List Festival :=
  match name, date, ty with
  | JSVal.string ns, JSVal.string ds, JSVal.string ts =>
      if ns = "" ∨ ¬ matchesDatePattern ds ∨ ts ∉ validTypes then
        (-1, festivals)
      else if festivals.any (fun f => f.name = ns) then (-1, festivals)
      else ((festivals.length : Int) + 1, festivals ++ [⟨ns, ds, ts⟩])
  | _, _, _ => (-1, festivals)

/-- The comparator `(a, b) => a.date.localeCompare(b.date)`:
`localeCompare` on these code-unit-ordered date strings is the lexical
comparison. -/
def dateCmp (a b : Festival) : Int :=
  if strLtB a.date b.date then -1 else if a.date = b.date then 0 else 1

/-- `getUpcoming(currentDate, n = 3)`: filter to dates `≥ currentDate`,
sort ascending by date with `localeCompare` (lexical on these strings),
take the first `n`. The count is `none` when the caller omitted it (the
default parameter then makes it `3`). -/
def getUpcoming (festivals : List Festival) (currentDate : JSVal)
    (n : Option Nat) : List Festival :=
  match currentDate with
  | JSVal.string cd =>
      if ¬ matchesDatePattern cd then []
      else
        let filtered := festivals.filter (fun f => strLeB cd f.date)
        let sorted := jsSort dateCmp filtered
        sorted.take (n.getD 3)
  | _ => []

/-! ## Election traces

The claims about election instances quantify over every state reachable
through the public methods; `runElection` replays a list of calls. -/

/-- One public state-changing call on an election instance. -/
inductive ElectionAction where
  | register (voter : Option RegVoter) : ElectionAction
  | vote (voterId candidateId : String) : ElectionAction
deriving DecidableEq, Repr

/-- Apply one call, keeping only the state (handler results do not affect
the private state). -/
def applyAction (st : ElectionState) (a : ElectionAction) : ElectionState :=
  match a with
  | .register v => (registerVoter st v).2
  | .vote vid cid => (castVote (β := Unit) st vid cid none none).2

/-- Replay a list of calls from a starting state. -/
def runElection (st : ElectionState) (acts : List ElectionAction) :
    ElectionState :=
  acts.foldl applyAction st

/-- The maximum vote count tracked by the `getWinner` loop (floor `0`). -/
def maxCount (st : ElectionState) : Int :=
  st.votes.foldl (fun a p => max a p.2) 0

/-- Stated from the spec sentence for C2: the first candidate, in
candidate insertion order, whose vote count equals the maximum count. -/
def firstMaxWinner (st : ElectionState) : Option Candidate :=
  (st.candidateMap.find?
    (fun q => lookupA st.votes q.1 = some (maxCount st))).map (fun q => q.2)

/-! ## Concrete demonstration data (used by the closed witnesses) -/

/-- The two candidates of the source file's usage example. -/
def demoCands : Option (List (Option Candidate)) :=
  some [some ⟨"C1", "Sarpanch Ram", "Janata"⟩, some ⟨"C2", "Pradhan Sita", "Lok"⟩]

/-- Register one voter and cast one vote, as in the usage example. -/
def demoActs : List ElectionAction :=
  [ElectionAction.register (some ⟨"V1", JSVal.number 25⟩),
   ElectionAction.vote "V1" "C1"]

/-- The election state after the demonstration trace. -/
def demoState : ElectionState :=
  runElection (createElection demoCands) demoActs

/-- The festivals of the spec's `getUpcoming` example. -/
def demoFestivals : List Festival :=
  [⟨"Diwali", "2025-10-20", "religious"⟩,
   ⟨"Republic Day", "2025-01-26", "national"⟩]

/-- An ascending-votes comparator used to demonstrate the custom-sort
path of `getResults`. -/
def demoCmp : ResultRow → ResultRow → Int :=
  fun a b => a.votes - b.votes

/-- A demonstration store for `tallyPure`: one tally object mapping the
candidate id "a" to 2 votes. -/
def demoStore : Store :=
  ⟨[[("a", 2)]]⟩

/-! ## Helper lemmas: string comparison bridge -/

theorem charListLt_iff : ∀ (as bs : List Char),
    charListLt as bs = true ↔ as < bs := by
  intro as
  induction as with
  | nil =>
      intro bs
      cases bs with
      | nil =>
          simp only [charListLt]
          exact ⟨by simp, fun h => by cases h⟩
      | cons b bs =>
          simp only [charListLt]
          exact ⟨fun _ => List.Lex.nil, fun _ => trivial⟩
  | cons a as ih =>
      intro bs
      cases bs with
      | nil =>
          simp only [charListLt]
          exact ⟨by simp, fun h => by cases h⟩
      | cons b bs =>
          simp only [charListLt]
          by_cases hab : a < b
          · simp only [if_pos hab]
            exact ⟨fun _ => List.Lex.rel hab, fun _ => trivial⟩
          · simp only [if_neg hab]
            by_cases hba : b < a
            · simp only [if_pos hba]
              constructor
              · intro h; cases h
              · intro h
                cases h with
                | cons h => exact absurd hba (lt_irrefl a)
                | rel h => exact absurd h hab
            · simp only [if_neg hba]
              have heq : a = b := le_antisymm (not_lt.mp hba) (not_lt.mp hab)
              subst heq
              rw [ih bs]
              constructor
              · intro h; exact List.Lex.cons h
              · intro h
                cases h with
                | cons h => exact h
                | rel h => exact absurd h hab

theorem strLtB_iff (a b : String) : strLtB a b = true ↔ a < b := by
  rw [strLtB, charListLt_iff, String.lt_iff_toList_lt]
  rfl

theorem strLeB_iff (a b : String) : strLeB a b = true ↔ a ≤ b := by
  rw [← not_lt, ← strLtB_iff b a, strLeB]
  cases strLtB b a <;> simp

/-! ## Helper lemmas: association lists and sets -/

theorem lookupA_nil {α : Type} (k : String) : lookupA ([] : List (String × α)) k = none := rfl

theorem lookupA_cons {α : Type} (p : String × α) (l : List (String × α)) (k : String) :
    lookupA (p :: l) k = if p.1 = k then some p.2 else lookupA l k := by
  by_cases h : p.1 = k
  · simp [lookupA, List.find?, h]
  · simp [lookupA, List.find?, h]

theorem lookupA_setAssoc_self {α : Type} (l : List (String × α)) (k : String) (v : α) :
    lookupA (setAssoc l k v) k = some v := by
  induction l with
  | nil => simp [setAssoc, lookupA, List.find?]
  | cons p rest ih =>
      rw [setAssoc]
      by_cases h : p.1 = k
      · rw [if_pos h, lookupA_cons]
        simp
      · rw [if_neg h, lookupA_cons, if_neg h]
        exact ih

theorem lookupA_setAssoc_ne {α : Type} (l : List (String × α)) (k k₂ : String) (v : α)
    (h : k₂ ≠ k) : lookupA (setAssoc l k v) k₂ = lookupA l k₂ := by
  have hkk : ¬ (k = k₂) := fun hk => h (Eq.symm hk)
  induction l with
  | nil =>
      rw [setAssoc, lookupA_cons, lookupA_nil, if_neg hkk]
  | cons p rest ih =>
      rw [setAssoc]
      by_cases hp : p.1 = k
      · rw [if_pos hp, lookupA_cons, lookupA_cons, hp, if_neg hkk, if_neg hkk]
      · rw [if_neg hp, lookupA_cons, lookupA_cons]
        by_cases hp2 : p.1 = k₂
        · rw [if_pos hp2, if_pos hp2]
        · rw [if_neg hp2, if_neg hp2]
          exact ih

theorem map_fst_setAssoc_mem {α : Type} (l : List (String × α)) (k : String) (v : α)
    (h : k ∈ l.map Prod.fst) : (setAssoc l k v).map Prod.fst = l.map Prod.fst := by
  induction l with
  | nil => simp at h
  | cons p rest ih =>
      rw [setAssoc]
      by_cases hp : p.1 = k
      · simp [hp]
      · rw [if_neg hp]
        simp only [List.map_cons, List.cons.injEq, true_and]
        apply ih
        simp only [List.map_cons, List.mem_cons] at h
        exact h.resolve_left (fun hk => hp hk.symm)

theorem map_fst_setAssoc_not_mem {α : Type} (l : List (String × α)) (k : String) (v : α)
    (h : k ∉ l.map Prod.fst) :
    (setAssoc l k v).map Prod.fst = l.map Prod.fst ++ [k] := by
  induction l with
  | nil => simp [setAssoc]
  | cons p rest ih =>
      simp only [List.map_cons, List.mem_cons] at h
      push_neg at h
      rw [setAssoc, if_neg (fun hp => h.1 hp.symm)]
      simp only [List.map_cons, List.cons_append, List.cons.injEq, true_and]
      exact ih h.2

theorem mem_setAssoc {α : Type} (l : List (String × α)) (k : String) (v : α)
    (p : String × α) (h : p ∈ setAssoc l k v) : p = (k, v) ∨ p ∈ l := by
  induction l with
  | nil =>
      rw [setAssoc] at h
      simp at h
      exact Or.inl h
  | cons q rest ih =>
      rw [setAssoc] at h
      by_cases hq : q.1 = k
      · rw [if_pos hq] at h
        rcases List.mem_cons.mp h with h1 | h2
        · exact Or.inl h1
        · exact Or.inr (List.mem_cons_of_mem q h2)
      · rw [if_neg hq] at h
        rcases List.mem_cons.mp h with h1 | h2
        · exact Or.inr (h1 ▸ List.mem_cons_self q rest)
        · rcases ih h2 with h3 | h4
          · exact Or.inl h3
          · exact Or.inr (List.mem_cons_of_mem q h4)

theorem sum_setAssoc (l : List (String × Int)) (k : String) (v old : Int)
    (h : lookupA l k = some old) :
    ((setAssoc l k v).map Prod.snd).sum = (l.map Prod.snd).sum - old + v := by
  induction l with
  | nil => simp [lookupA_nil] at h
  | cons p rest ih =>
      rw [lookupA_cons] at h
      rw [setAssoc]
      by_cases hp : p.1 = k
      · rw [if_pos hp] at h
        rw [if_pos hp]
        simp only [Option.some.injEq] at h
        simp [h]
        ring
      · rw [if_neg hp] at h
        rw [if_neg hp]
        simp only [List.map_cons, List.sum_cons, ih h]
        ring

theorem lookupA_eq_none_iff {α : Type} (l : List (String × α)) (k : String) :
    lookupA l k = none ↔ k ∉ l.map Prod.fst := by
  induction l with
  | nil => simp [lookupA_nil]
  | cons p rest ih =>
      rw [lookupA_cons]
      by_cases hp : p.1 = k
      · simp [hp]
      · simp only [if_neg hp, List.map_cons, List.mem_cons, ih]
        constructor
        · intro h hk
          rcases hk with hk | hk
          · exact hp hk.symm
          · exact h hk
        · intro h
          exact fun hk => h (Or.inr hk)

theorem lookupA_isSome_of_mem_keys {α : Type} (l : List (String × α)) (k : String)
    (h : k ∈ l.map Prod.fst) : ∃ v, lookupA l k = some v := by
  cases hx : lookupA l k with
  | none => exact absurd ((lookupA_eq_none_iff l k).mp hx) (fun hn => hn h)
  | some v => exact ⟨v, rfl⟩

theorem mem_of_lookupA {α : Type} (l : List (String × α)) (k : String) (v : α)
    (h : lookupA l k = some v) : (k, v) ∈ l := by
  induction l with
  | nil => simp [lookupA_nil] at h
  | cons p rest ih =>
      rw [lookupA_cons] at h
      by_cases hp : p.1 = k
      · rw [if_pos hp] at h
        simp only [Option.some.injEq] at h
        have : p = (k, v) := by
          cases p
          simp only [Prod.mk.injEq]
          exact ⟨hp, h⟩
        exact this ▸ List.mem_cons_self p rest
      · rw [if_neg hp] at h
        exact List.mem_cons_of_mem p (ih h)

theorem lookupA_of_mem_nodup {α : Type} (l : List (String × α)) (p : String × α)
    (hnd : (l.map Prod.fst).Nodup) (h : p ∈ l) : lookupA l p.1 = some p.2 := by
  induction l with
  | nil => simp at h
  | cons q rest ih =>
      simp only [List.map_cons, List.nodup_cons] at hnd
      rcases List.mem_cons.mp h with h1 | h2
      · subst h1
        rw [lookupA_cons, if_pos rfl]
      · rw [lookupA_cons]
        by_cases hq : q.1 = p.1
        · exact absurd (hq ▸ List.mem_map_of_mem Prod.fst h2) hnd.1
        · rw [if_neg hq]
          exact ih hnd.2 h2

theorem setAdd_of_not_mem (l : List String) (x : String) (h : x ∉ l) :
    setAdd l x = l ++ [x] := by
  rw [setAdd, if_neg h]

/-! ## Election invariants -/

/-- The internal well-formedness invariant of an election instance,
maintained by every public method. -/
def ElectionInv (st : ElectionState) : Prop :=
  (∀ x ∈ st.voted, x ∈ st.registered) ∧
  st.voted.Nodup ∧
  st.votes.map Prod.fst = st.candidateMap.map Prod.fst ∧
  (st.candidateMap.map Prod.fst).Nodup ∧
  (∀ p ∈ st.votes, 0 ≤ p.2) ∧
  (st.votes.map Prod.snd).sum = (st.voted.length : Int) ∧
  (∀ p ∈ st.candidateMap, p.2.id = p.1)

/-- The stronger property holding during `createElection`'s construction
loop: no voters yet and every count zero. -/
def CreationInv (st : ElectionState) : Prop :=
  st.votes.map Prod.fst = st.candidateMap.map Prod.fst ∧
  (st.candidateMap.map Prod.fst).Nodup ∧
  (∀ p ∈ st.votes, p.2 = 0) ∧
  (∀ p ∈ st.candidateMap, p.2.id = p.1) ∧
  st.registered = [] ∧
  st.voted = []

theorem creationInv_step (st : ElectionState) (c : Option Candidate)
    (h : CreationInv st) :
    CreationInv
      ((fun st c =>
        match c with
        | some cand =>
            if cand.id ≠ "" then
              { st with
                candidateMap := setAssoc st.candidateMap cand.id cand
                votes := setAssoc st.votes cand.id (0 : Int) }
            else st
        | none => st) st c) := by
  obtain ⟨hkeys, hnd, hzero, hid, hreg, hvot⟩ := h
  match c with
  | none => exact ⟨hkeys, hnd, hzero, hid, hreg, hvot⟩
  | some cand =>
      by_cases hc : cand.id ≠ ""
      · simp only [if_pos hc]
        refine ⟨?_, ?_, ?_, ?_, hreg, hvot⟩
        · by_cases hm : cand.id ∈ st.candidateMap.map Prod.fst
          · rw [map_fst_setAssoc_mem _ _ _ (hkeys ▸ hm),
              map_fst_setAssoc_mem _ _ _ hm, hkeys]
          · rw [map_fst_setAssoc_not_mem _ _ _ (fun hx => hm (hkeys ▸ hx)),
              map_fst_setAssoc_not_mem _ _ _ hm, hkeys]
        · by_cases hm : cand.id ∈ st.candidateMap.map Prod.fst
          · rw [map_fst_setAssoc_mem _ _ _ hm]
            exact hnd
          · rw [map_fst_setAssoc_not_mem _ _ _ hm]
            apply List.Nodup.append hnd (List.nodup_singleton _)
            intro a ha hb
            simp only [List.mem_singleton] at hb
            exact hm (hb ▸ ha)
        · intro p hp
          rcases mem_setAssoc _ _ _ _ hp with h1 | h2
          · rw [h1]
          · exact hzero p h2
        · intro p hp
          rcases mem_setAssoc _ _ _ _ hp with h1 | h2
          · rw [h1]
          · exact hid p h2
      · simp only [if_neg hc]
        exact ⟨hkeys, hnd, hzero, hid, hreg, hvot⟩

theorem creationInv_createElection (candidates : Option (List (Option Candidate))) :
    CreationInv (createElection candidates) := by
  rw [createElection]
  have hbase : CreationInv ⟨[], [], [], []⟩ := by
    refine ⟨rfl, List.nodup_nil, ?_, ?_, rfl, rfl⟩ <;> simp
  generalize (⟨[], [], [], []⟩ : ElectionState) = st at hbase ⊢
  induction (candidates.getD []) generalizing st with
  | nil => exact hbase
  | cons c rest ih =>
      rw [List.foldl_cons]
      exact ih _ (creationInv_step st c hbase)

theorem electionInv_of_creationInv (st : ElectionState) (h : CreationInv st) :
    ElectionInv st := by
  obtain ⟨hkeys, hnd, hzero, hid, hreg, hvot⟩ := h
  refine ⟨?_, ?_, hkeys, hnd, ?_, ?_, hid⟩
  · intro x hx
    rw [hvot] at hx
    simp at hx
  · rw [hvot]
    exact List.nodup_nil
  · intro p hp
    rw [hzero p hp]
  · rw [hvot]
    simp only [List.length_nil, Nat.cast_zero]
    apply List.sum_eq_zero
    intro x hx
    rcases List.mem_map.mp hx with ⟨p, hp, hpx⟩
    rw [← hpx, hzero p hp]

theorem electionInv_createElection (candidates : Option (List (Option Candidate))) :
    ElectionInv (createElection candidates) :=
  electionInv_of_creationInv _ (creationInv_createElection candidates)

theorem registerVoter_electionInv (st : ElectionState) (voter : Option RegVoter)
    (h : ElectionInv st) : ElectionInv (registerVoter st voter).2 := by
  obtain ⟨hsub, hnd, hkeys, hknd, hpos, hsum, hid⟩ := h
  match voter with
  | none => exact ⟨hsub, hnd, hkeys, hknd, hpos, hsum, hid⟩
  | some v =>
      rw [registerVoter]
      match hv : v.age with
      | JSVal.number a =>
          dsimp only
          by_cases hc : v.id = "" ∨ a < 18 ∨ v.id ∈ st.registered
          · rw [if_pos hc]
            exact ⟨hsub, hnd, hkeys, hknd, hpos, hsum, hid⟩
          · rw [if_neg hc]
            refine ⟨?_, hnd, hkeys, hknd, hpos, hsum, hid⟩
            intro x hx
            simp only [setAdd]
            by_cases hm : v.id ∈ st.registered
            · rw [if_pos hm]
              exact hsub x hx
            · rw [if_neg hm]
              exact List.mem_append_left _ (hsub x hx)
      | JSVal.undefined => exact ⟨hsub, hnd, hkeys, hknd, hpos, hsum, hid⟩
      | JSVal.null => exact ⟨hsub, hnd, hkeys, hknd, hpos, hsum, hid⟩
      | JSVal.boolean b => exact ⟨hsub, hnd, hkeys, hknd, hpos, hsum, hid⟩
      | JSVal.string s => exact ⟨hsub, hnd, hkeys, hknd, hpos, hsum, hid⟩

theorem castVote_electionInv {β : Type} (st : ElectionState)
    (voterId candidateId : String)
    (onSuccess : Option (VoteOk → Option β)) (onError : Option (String → Option β))
    (h : ElectionInv st) :
    ElectionInv (castVote st voterId candidateId onSuccess onError).2 := by
  obtain ⟨hsub, hnd, hkeys, hknd, hpos, hsum, hid⟩ := h
  rw [castVote]
  by_cases h1 : voterId ∉ st.registered
  · rw [if_pos h1]
    exact ⟨hsub, hnd, hkeys, hknd, hpos, hsum, hid⟩
  · rw [if_neg h1]
    by_cases h2 : lookupA st.candidateMap candidateId = none
    · rw [if_pos h2]
      exact ⟨hsub, hnd, hkeys, hknd, hpos, hsum, hid⟩
    · rw [if_neg h2]
      by_cases h3 : voterId ∈ st.voted
      · rw [if_pos h3]
        exact ⟨hsub, hnd, hkeys, hknd, hpos, hsum, hid⟩
      · rw [if_neg h3]
        have hmem : candidateId ∈ st.votes.map Prod.fst := by
          rw [hkeys]
          by_contra hm
          exact h2 ((lookupA_eq_none_iff _ _).mpr hm)
        obtain ⟨old, hold⟩ := lookupA_isSome_of_mem_keys _ _ hmem
        have holdpos : 0 ≤ old := hpos _ (mem_of_lookupA _ _ _ hold)
        have hreg : voterId ∈ st.registered := by
          by_contra hr
          exact h1 hr
        rw [setAdd_of_not_mem _ _ h3]
        refine ⟨?_, ?_, ?_, hknd, ?_, ?_, hid⟩
        · intro x hx
          rcases List.mem_append.mp hx with hx | hx
          · exact hsub x hx
          · simp only [List.mem_singleton] at hx
            exact hx ▸ hreg
        · apply List.Nodup.append hnd (List.nodup_singleton _)
          intro a ha hb
          simp only [List.mem_singleton] at hb
          exact h3 (hb ▸ ha)
        · dsimp only
          rw [map_fst_setAssoc_mem _ _ _ hmem, hkeys]
        · intro p hp
          rcases mem_setAssoc _ _ _ _ hp with hp1 | hp2
          · rw [hp1]
            dsimp only
            rw [hold]
            simp only [Option.getD_some]
            omega
          · exact hpos p hp2
        · dsimp only
          rw [sum_setAssoc _ _ _ _ hold, hold]
          simp only [Option.getD_some, List.length_append, List.length_singleton]
          rw [hsum]
          push_cast
          ring

theorem applyAction_electionInv (st : ElectionState) (a : ElectionAction)
    (h : ElectionInv st) : ElectionInv (applyAction st a) := by
  match a with
  | .register v => exact registerVoter_electionInv st v h
  | .vote vid cid => exact castVote_electionInv st vid cid none none h

theorem runElection_electionInv (st : ElectionState) (acts : List ElectionAction)
    (h : ElectionInv st) : ElectionInv (runElection st acts) := by
  rw [runElection]
  induction acts generalizing st with
  | nil => exact h
  | cons a rest ih =>
      rw [List.foldl_cons]
      exact ih _ (applyAction_electionInv st a h)

theorem electionInv_reachable (candidates : Option (List (Option Candidate)))
    (acts : List ElectionAction) :
    ElectionInv (runElection (createElection candidates) acts) :=
  runElection_electionInv _ acts (electionInv_createElection candidates)

/-! ## The `getWinner` scanning loop -/

/-- The running maximum computed by the `getWinner` loop. -/
def foldMax (l : List (String × Int)) (m : Int) : Int :=
  l.foldl (fun a p => max a p.2) m

theorem foldMax_nil (m : Int) : foldMax [] m = m := rfl

theorem foldMax_cons (p : String × Int) (l : List (String × Int)) (m : Int) :
    foldMax (p :: l) m = foldMax l (max m p.2) := rfl

theorem le_foldMax : ∀ (l : List (String × Int)) (m : Int), m ≤ foldMax l m := by
  intro l
  induction l with
  | nil => intro m; exact le_refl m
  | cons p rest ih =>
      intro m
      rw [foldMax_cons]
      exact le_trans (le_max_left m p.2) (ih (max m p.2))

theorem snd_le_foldMax : ∀ (l : List (String × Int)) (m : Int) (p : String × Int),
    p ∈ l → p.2 ≤ foldMax l m := by
  intro l
  induction l with
  | nil => intro m p hp; simp at hp
  | cons q rest ih =>
      intro m p hp
      rw [foldMax_cons]
      rcases List.mem_cons.mp hp with h1 | h2
      · exact le_trans (h1 ▸ le_max_right m q.2) (le_foldMax rest _)
      · exact ih _ p h2

theorem winnerFold_spec (cm : List (String × Candidate)) :
    ∀ (l : List (String × Int)) (w : Option Candidate) (m : Int),
    (List.foldl (fun acc p => if acc.2 < p.2 then (lookupA cm p.1, p.2) else acc) (w, m) l).2
      = foldMax l m ∧
    (foldMax l m = m →
      (List.foldl (fun acc p => if acc.2 < p.2 then (lookupA cm p.1, p.2) else acc) (w, m) l).1
        = w) ∧
    (m < foldMax l m →
      ∃ k, l.find? (fun p => decide (p.2 = foldMax l m)) = some (k, foldMax l m) ∧
        (List.foldl (fun acc p => if acc.2 < p.2 then (lookupA cm p.1, p.2) else acc) (w, m) l).1
          = lookupA cm k) := by
  intro l
  induction l with
  | nil =>
      intro w m
      refine ⟨rfl, fun _ => rfl, fun h => absurd h (lt_irrefl m)⟩
  | cons p rest ih =>
      intro w m
      rw [List.foldl_cons, foldMax_cons]
      by_cases hm : m < p.2
      · have hmax : max m p.2 = p.2 := max_eq_right (le_of_lt hm)
        rw [hmax]
        simp only [if_pos hm]
        obtain ⟨ih1, ih2, ih3⟩ := ih (lookupA cm p.1) p.2
        have hple : p.2 ≤ foldMax rest p.2 := le_foldMax rest p.2
        refine ⟨ih1, ?_, ?_⟩
        · intro hMm
          have hmm : m < m := lt_of_lt_of_le (lt_of_lt_of_le hm hple) (le_of_eq hMm)
          exact absurd hmm (lt_irrefl m)
        · intro _
          by_cases hpM : p.2 = foldMax rest p.2
          · refine ⟨p.1, ?_, ?_⟩
            · rw [List.find?_cons_of_pos _ (by simpa using hpM)]
              cases p with
              | mk k v =>
                  simp only at hpM
                  rw [← hpM]
            · exact ih2 hpM.symm
          · have hplt : p.2 < foldMax rest p.2 := lt_of_le_of_ne hple hpM
            rw [List.find?_cons_of_neg _ (by simpa using hpM)]
            exact ih3 hplt
      · have hmax : max m p.2 = m := max_eq_left (not_lt.mp hm)
        rw [hmax]
        simp only [if_neg hm]
        obtain ⟨ih1, ih2, ih3⟩ := ih w m
        refine ⟨ih1, ih2, ?_⟩
        · intro hlt
          have hpne : ¬ (p.2 = foldMax rest m) :=
            fun hpe => hm (lt_of_lt_of_le hlt (le_of_eq hpe.symm))
          rw [List.find?_cons_of_neg _ (by simpa using hpne)]
          exact ih3 hlt

theorem find?_congr_mem {α : Type} (l : List α) (p q : α → Bool)
    (h : ∀ x ∈ l, p x = q x) : l.find? p = l.find? q := by
  induction l with
  | nil => rfl
  | cons a rest ih =>
      have ha := h a (List.mem_cons_self a rest)
      cases hp : p a with
      | true =>
          rw [List.find?_cons_of_pos _ hp, List.find?_cons_of_pos _ (ha ▸ hp)]
      | false =>
          rw [List.find?_cons_of_neg _ (by simp [hp]),
            List.find?_cons_of_neg _ (by simp [← ha, hp])]
          exact ih (fun x hx => h x (List.mem_cons_of_mem a hx))

theorem foldMax_eq_of_all_le : ∀ (l : List (String × Int)) (m : Int),
    (∀ p ∈ l, p.2 ≤ m) → foldMax l m = m := by
  intro l
  induction l with
  | nil => intro m _; rfl
  | cons p rest ih =>
      intro m h
      rw [foldMax_cons, max_eq_left (h p (List.mem_cons_self p rest))]
      exact ih m (fun q hq => h q (List.mem_cons_of_mem p hq))

theorem all_zero_of_sum_zero : ∀ (l : List (String × Int)),
    (∀ p ∈ l, 0 ≤ p.2) → (l.map Prod.snd).sum = 0 → ∀ p ∈ l, p.2 = 0 := by
  intro l
  induction l with
  | nil => intro _ _ p hp; simp at hp
  | cons q rest ih =>
      intro hpos hsum p hp
      rw [List.map_cons, List.sum_cons] at hsum
      have hrest : 0 ≤ (rest.map Prod.snd).sum := by
        apply List.sum_nonneg
        intro x hx
        rcases List.mem_map.mp hx with ⟨r, hr, hrx⟩
        exact hrx ▸ hpos r (List.mem_cons_of_mem q hr)
      have hq : 0 ≤ q.2 := hpos q (List.mem_cons_self q rest)
      have hq0 : q.2 = 0 := by omega
      have hsum0 : (rest.map Prod.snd).sum = 0 := by omega
      rcases List.mem_cons.mp hp with h1 | h2
      · rw [h1, hq0]
      · exact ih (fun r hr => hpos r (List.mem_cons_of_mem q hr)) hsum0 p h2

theorem exists_pos_of_sum_pos : ∀ (l : List (String × Int)),
    0 < (l.map Prod.snd).sum → ∃ p ∈ l, 0 < p.2 := by
  intro l
  induction l with
  | nil => intro h; simp at h
  | cons q rest ih =>
      intro h
      rw [List.map_cons, List.sum_cons] at h
      by_cases hq : 0 < q.2
      · exact ⟨q, List.mem_cons_self q rest, hq⟩
      · have hrest : 0 < (rest.map Prod.snd).sum := by omega
        obtain ⟨p, hp, hpp⟩ := ih hrest
        exact ⟨p, List.mem_cons_of_mem q hp, hpp⟩

theorem aligned_find (M : Int) :
    ∀ (vl : List (String × Int)) (cl : List (String × Candidate)),
    vl.map Prod.fst = cl.map Prod.fst → (vl.map Prod.fst).Nodup →
    ((vl.find? (fun p => decide (p.2 = M))).bind (fun p => lookupA cl p.1)) =
      (cl.find? (fun q => decide (lookupA vl q.1 = some M))).map Prod.snd := by
  intro vl
  induction vl with
  | nil =>
      intro cl hkeys _
      have hcl : cl = [] := List.map_eq_nil_iff.mp hkeys.symm
      rw [hcl]
      rfl
  | cons p vr ih =>
      intro cl hkeys hnd
      cases cl with
      | nil => simp at hkeys
      | cons c cr =>
          simp only [List.map_cons, List.cons.injEq] at hkeys
          obtain ⟨hk, hkeysr⟩ := hkeys
          simp only [List.map_cons, List.nodup_cons] at hnd
          obtain ⟨hnotin, hndr⟩ := hnd
          have hlookup_head : lookupA (p :: vr) c.1 = some p.2 := by
            rw [lookupA_cons, if_pos hk]
          by_cases hv : p.2 = M
          · rw [List.find?_cons_of_pos _ (by simpa using hv)]
            rw [List.find?_cons_of_pos _ (by simp [hlookup_head, hv])]
            show lookupA (c :: cr) p.1 = some c.2
            rw [lookupA_cons, if_pos hk.symm]
          · rw [List.find?_cons_of_neg _ (by simpa using hv)]
            rw [List.find?_cons_of_neg _ (by simp [hlookup_head, hv])]
            have hcr_pred : cr.find? (fun q => decide (lookupA (p :: vr) q.1 = some M)) =
                cr.find? (fun q => decide (lookupA vr q.1 = some M)) := by
              apply find?_congr_mem
              intro q hq
              have hq_keys : q.1 ∈ vr.map Prod.fst := by
                rw [hkeysr]
                exact List.mem_map_of_mem Prod.fst hq
              have hqk : p.1 ≠ q.1 := fun he => hnotin (he ▸ hq_keys)
              rw [lookupA_cons, if_neg hqk]
            rw [hcr_pred, ← ih cr hkeysr hndr]
            cases hfind : vr.find? (fun p => decide (p.2 = M)) with
            | none => rfl
            | some q =>
                have hq_mem : q ∈ vr := List.mem_of_find?_eq_some hfind
                have hq_keys : q.1 ∈ vr.map Prod.fst :=
                  List.mem_map_of_mem Prod.fst hq_mem
                have hqk : ¬ (c.1 = q.1) := fun he =>
                  hnotin (by rw [hk, he]; exact hq_keys)
                show lookupA (c :: cr) q.1 = lookupA cr q.1
                rw [lookupA_cons, if_neg hqk]

theorem getWinner_char (st : ElectionState) (h : ElectionInv st) :
    (getWinner st = none ↔ st.voted = []) ∧
    (st.voted ≠ [] →
      getWinner st = firstMaxWinner st ∧ ∃ c, getWinner st = some c) := by
  obtain ⟨hsub, hnd, hkeys, hknd, hpos, hsum, hid⟩ := h
  obtain ⟨hf1, hf2, hf3⟩ := winnerFold_spec st.candidateMap st.votes none 0
  have hM0 : (0 : Int) ≤ foldMax st.votes 0 := le_foldMax st.votes 0
  by_cases hvt : st.voted = []
  · have hsum0 : (st.votes.map Prod.snd).sum = 0 := by
      rw [hsum, hvt]
      simp
    have hall0 : ∀ p ∈ st.votes, p.2 = 0 := all_zero_of_sum_zero _ hpos hsum0
    have hMeq : foldMax st.votes 0 = 0 :=
      foldMax_eq_of_all_le _ _ (fun p hp => le_of_eq (hall0 p hp))
    have hwin : getWinner st = none := by
      simp only [getWinner]
      rw [hf1, hMeq]
      simp
    refine ⟨⟨fun _ => hvt, fun _ => hwin⟩, fun hne => absurd hvt hne⟩
  · have hlen : 0 < st.voted.length := List.length_pos.mpr hvt
    have hsumpos : 0 < (st.votes.map Prod.snd).sum := by
      rw [hsum]
      exact_mod_cast hlen
    obtain ⟨p, hp, hppos⟩ := exists_pos_of_sum_pos _ hsumpos
    have hMpos : 0 < foldMax st.votes 0 :=
      lt_of_lt_of_le hppos (snd_le_foldMax st.votes 0 p hp)
    obtain ⟨k, hfind, hres⟩ := hf3 hMpos
    have hvnd : (st.votes.map Prod.fst).Nodup := by
      rw [hkeys]
      exact hknd
    have halign := aligned_find (foldMax st.votes 0) st.votes st.candidateMap hkeys hvnd
    rw [hfind] at halign
    have hkmem : k ∈ st.candidateMap.map Prod.fst := by
      rw [← hkeys]
      exact List.mem_map_of_mem Prod.fst (List.mem_of_find?_eq_some hfind)
    obtain ⟨c, hc⟩ := lookupA_isSome_of_mem_keys st.candidateMap k hkmem
    have hwin : getWinner st = some c := by
      simp only [getWinner]
      rw [hf1]
      rw [if_neg (by omega : ¬ (foldMax st.votes 0 = 0))]
      rw [hres, hc]
    have hfmw : firstMaxWinner st = some c := by
      rw [firstMaxWinner, show maxCount st = foldMax st.votes 0 from rfl]
      rw [← halign]
      show lookupA st.candidateMap k = some c
      exact hc
    refine ⟨⟨fun hw => absurd (hw ▸ hwin) (by simp), fun hv => absurd hv hvt⟩, ?_⟩
    intro _
    exact ⟨hwin.trans hfmw.symm, c, hwin⟩

/-! ## Sorting lemmas for the `jsSort` model -/

theorem insertionSort_filter_ties {α : Type} (r : α → α → Prop) [DecidableRel r]
    (p : α → Bool) (l : List α)
    (hr : ∀ a b, p a = true → p b = true → r a b) :
    (l.insertionSort r).filter p = l.filter p := by
  have hsub : List.Sublist (l.filter p) l := List.filter_sublist l
  have hpw : (l.filter p).Pairwise r := by
    apply List.pairwise_of_forall_mem_list
    intro a ha b hb
    exact hr a b (List.of_mem_filter ha) (List.of_mem_filter hb)
  have hs : List.Sublist (l.filter p) (l.insertionSort r) :=
    List.sublist_insertionSort hpw hsub
  have hsf : List.Sublist ((l.filter p).filter p) ((l.insertionSort r).filter p) :=
    hs.filter p
  rw [List.filter_eq_self.mpr (fun a ha => List.of_mem_filter ha)] at hsf
  have hperm : List.Perm ((l.insertionSort r).filter p) (l.filter p) :=
    (List.perm_insertionSort r l).filter p
  exact (hsf.eq_of_length hperm.length_eq.symm).symm

theorem jsSort_perm {α : Type} (cmp : α → α → Int) (l : List α) :
    List.Perm (jsSort cmp l) l :=
  List.perm_insertionSort _ l

theorem jsSort_sorted {α : Type} (cmp : α → α → Int) (l : List α)
    (htrans : ∀ a b c, cmp a b ≤ 0 → cmp b c ≤ 0 → cmp a c ≤ 0)
    (htotal : ∀ a b, cmp a b ≤ 0 ∨ cmp b a ≤ 0) :
    (jsSort cmp l).Pairwise (fun a b => cmp a b ≤ 0) := by
  rw [jsSort]
  haveI : IsTotal α (fun a b => cmp a b ≤ 0) := ⟨htotal⟩
  haveI : IsTrans α (fun a b => cmp a b ≤ 0) := ⟨fun a b c => htrans a b c⟩
  exact List.sorted_insertionSort _ l

theorem jsSort_filter_ties {α : Type} (cmp : α → α → Int) (p : α → Bool)
    (l : List α) (hr : ∀ a b, p a = true → p b = true → cmp a b ≤ 0) :
    (jsSort cmp l).filter p = l.filter p :=
  insertionSort_filter_ties _ p l hr

/-! ## Remaining helper lemmas -/

theorem countVotesAux_eq : ∀ (l : List RegionVal) (t : Int),
    countVotesAux t l = t + (l.map countVotesInRegions).sum := by
  intro l
  induction l with
  | nil => intro t; simp [countVotesAux]
  | cons r rest ih =>
      intro t
      rw [countVotesAux, ih]
      simp only [List.map_cons, List.sum_cons]
      ring

theorem checkRequired_eq (required : List String) (v : JSObj) :
    checkRequired required v =
      required.find? (fun field => ¬ hasField v field) := by
  induction required with
  | nil => rfl
  | cons f rest ih =>
      rw [checkRequired]
      by_cases hf : hasField v f
      · rw [if_neg (by simpa using hf)]
        rw [List.find?_cons_of_neg _ (by simpa using hf)]
        exact ih
      · rw [if_pos (by simpa using hf)]
        rw [List.find?_cons_of_pos _ (by simpa using hf)]

/-! ## Claim theorems -/

/-- Claim C1: for every call `castVote(voterId, candidateId, onSuccess,
onError)`, exactly one of the two handlers is invoked and the call returns
that handler's value: the success handler receives `{voterId, candidateId}`
exactly when the voter is registered, the candidate exists and the voter
has not voted; otherwise the error handler receives the first applicable
reason in the order `voter_not_registered`, `candidate_not_found`,
`already_voted`; a missing handler is a no-op returning `undefined`. -/
theorem castVote_handlers {β : Type} (st : ElectionState)
    (voterId candidateId : String)
    (f : VoteOk → Option β) (g : String → Option β) :
    ((castVote st voterId candidateId (some f) (some g)).1 =
      if voterId ∉ st.registered then g "voter_not_registered"
      else if lookupA st.candidateMap candidateId = none then g "candidate_not_found"
      else if voterId ∈ st.voted then g "already_voted"
      else f ⟨voterId, candidateId⟩) ∧
    ((castVote st voterId candidateId none (some g)).1 =
      if voterId ∉ st.registered then g "voter_not_registered"
      else if lookupA st.candidateMap candidateId = none then g "candidate_not_found"
      else if voterId ∈ st.voted then g "already_voted"
      else none) ∧
    ((castVote st voterId candidateId (some f) none).1 =
      if voterId ∉ st.registered ∨ lookupA st.candidateMap candidateId = none ∨
          voterId ∈ st.voted then none
      else f ⟨voterId, candidateId⟩) ∧
    ((castVote (β := β) st voterId candidateId none none).1 = none) := by
  refine ⟨?_, ?_, ?_, ?_⟩ <;>
    · by_cases h1 : voterId ∈ st.registered <;>
        by_cases h2 : lookupA st.candidateMap candidateId = none <;>
          by_cases h3 : voterId ∈ st.voted <;>
            simp [castVote, h1, h2, h3]

/-- Claim C3: `registerVoter(voter)` returns true if and only if the voter
is a well-formed object with a non-empty id, a numeric age at least 18 and
an id not already registered; in every other case it returns false. -/
theorem registerVoter_iff (st : ElectionState) (voter : Option RegVoter) :
    (registerVoter st voter).1 = true ↔
      ∃ v, voter = some v ∧ v.id ≠ "" ∧
        (∃ a : Int, v.age = JSVal.number a ∧ 18 ≤ a) ∧
        v.id ∉ st.registered := by
  cases voter with
  | none => simp [registerVoter]
  | some v =>
      cases hv : v.age with
      | number a =>
          simp only [registerVoter, hv]
          by_cases hc : v.id = "" ∨ a < 18 ∨ v.id ∈ st.registered
          · rw [if_pos hc]
            simp only [Option.some.injEq]
            constructor
            · intro h; exact absurd h (by simp)
            · rintro ⟨w, hw, hid, ⟨b, hb, hble⟩, hreg⟩
              subst hw
              rw [hv] at hb
              simp only [JSVal.number.injEq] at hb
              subst hb
              rcases hc with h | h | h
              · exact absurd h hid
              · exact absurd hble (by omega)
              · exact absurd h hreg
          · rw [if_neg hc]
            push_neg at hc
            simp only [Option.some.injEq, true_iff]
            exact ⟨v, rfl, hc.1, ⟨a, hv, by omega⟩, hc.2.2⟩
      | undefined => simp [registerVoter, hv]
      | null => simp [registerVoter, hv]
      | boolean b => simp [registerVoter, hv]
      | string s => simp [registerVoter, hv]

/-- Claim C6: `countVotesInRegions` returns 0 for null/non-object input,
and otherwise the node's own votes (0 when absent or non-numeric) plus the
recursive sum over `subRegions` (nothing when absent or not a list); the
spec's example tree sums to 11. -/
theorem countVotesInRegions_spec :
    countVotesInRegions RegionVal.nonObject = 0 ∧
    (∀ votes : Option Int,
      countVotesInRegions (RegionVal.node votes none) = votes.getD 0) ∧
    (∀ (votes : Option Int) (subs : List RegionVal),
      countVotesInRegions (RegionVal.node votes (some subs)) =
        votes.getD 0 + (subs.map countVotesInRegions).sum) ∧
    countVotesInRegions (RegionVal.node (some 5) (some
      [RegionVal.node (some 3) (some []),
       RegionVal.node (some 2) (some
         [RegionVal.node (some 1) (some [])])])) = 11 := by
  refine ⟨rfl, fun votes => rfl, ?_, by decide⟩
  intro votes subs
  rw [show countVotesInRegions (RegionVal.node votes (some subs)) =
      countVotesAux (votes.getD 0) subs from rfl]
  exact countVotesAux_eq subs (votes.getD 0)

/-- Claim C7: the validator returned by `createVoteValidator(rules)`, with
`minAge` defaulting to 18 and `requiredFields` to the empty list, reports
`invalid_voter` for a non-object voter, `missing_<field>` for the first
absent required field in list order, `underage` when the age is not a
number at least `minAge`, and `{valid: true, reason: ""}` otherwise. -/
theorem createVoteValidator_eq_claim (rules : Option ValidatorRules)
    (voter : Option JSObj) :
    createVoteValidator rules voter = claimVoteValidator rules voter := by
  simp only [createVoteValidator, claimVoteValidator]
  cases voter with
  | none => rfl
  | some v =>
      dsimp only
      rw [checkRequired_eq]
      cases hfind : ((rules.bind ValidatorRules.requiredFields).getD []).find?
          (fun field => ¬ hasField v field) with
      | some field => rfl
      | none =>
          dsimp only
          cases hage : getField v "age" with
          | number a =>
              dsimp only
              by_cases ha : a < (rules.bind ValidatorRules.minAge).getD 18
              · rw [if_pos ha, if_neg (by omega)]
              · rw [if_neg ha, if_pos (by omega)]
          | undefined => rfl
          | null => rfl
          | boolean b => rfl
          | string s => rfl

/-- Claim C5: `tallyPure(T, C)` never mutates `T` (every object of the
store before the call, `T` included, is unchanged after it) and returns a
fresh mapping whose count for `C` is one more than `T`'s (1 when absent),
with all other keys unchanged; a falsy `C` yields an unmodified copy, and
an invalid `T` is replaced by the empty mapping. -/
theorem tallyPure_spec (h : Store) (r : Option Nat) (cid : String) :
    ((tallyPure h r cid).1.objs.take h.objs.length = h.objs) ∧
    ((tallyPure h r cid).2 = h.objs.length) ∧
    (cid ≠ "" →
      lookupA (Store.deref (tallyPure h r cid).1 (tallyPure h r cid).2) cid =
        some ((lookupA (tallyBase h r) cid).getD 0 + 1) ∧
      ∀ k, k ≠ cid →
        lookupA (Store.deref (tallyPure h r cid).1 (tallyPure h r cid).2) k =
          lookupA (tallyBase h r) k) ∧
    (cid = "" →
      Store.deref (tallyPure h r cid).1 (tallyPure h r cid).2 = tallyBase h r) := by
  have hderef : Store.deref (tallyPure h r cid).1 (tallyPure h r cid).2 =
      (if cid = "" then tallyBase h r
       else setAssoc (tallyBase h r) cid
         ((lookupA (tallyBase h r) cid).getD 0 + 1)) := by
    simp only [tallyPure, Store.deref]
    rw [List.getElem?_concat_length]
    rfl
  refine ⟨?_, rfl, ?_, ?_⟩
  · simp only [tallyPure]
    exact List.take_left h.objs _
  · intro hcid
    rw [hderef, if_neg hcid]
    exact ⟨lookupA_setAssoc_self _ _ _, fun k hk => lookupA_setAssoc_ne _ _ _ _ hk⟩
  · intro hcid
    rw [hderef, if_pos hcid]

/-- Claim C5 witness: on a store holding one tally `{a: 2}`, incrementing
`"a"` through a valid reference leaves the original object in place and
produces a fresh object with count 3. -/
theorem tallyPure_spec_witness :
    (tallyPure demoStore (some 0) "a").1.objs.take demoStore.objs.length =
      demoStore.objs ∧
    lookupA (Store.deref (tallyPure demoStore (some 0) "a").1
      (tallyPure demoStore (some 0) "a").2) "a" = some 3 := by
  obtain ⟨h1, _, h3, _⟩ := tallyPure_spec demoStore (some 0) "a"
  refine ⟨h1, ?_⟩
  rw [(h3 (by decide)).1]
  decide

/-- Claim C8: `addFestival(name, date, type)` returns `-1` exactly when
the name is not a non-empty string, the date does not match `YYYY-MM-DD`,
the type is not religious/national/cultural, or the name already exists
(leaving the list unchanged); otherwise it appends `{name, date, type}`
and returns the new total count, one more than before. -/
theorem addFestival_spec (fs : List Festival) (name date ty : JSVal) :
    ((addFestival fs name date ty).1 = -1 ↔
      ¬ ∃ ns ds ts, name = JSVal.string ns ∧ ns ≠ "" ∧
        date = JSVal.string ds ∧ matchesDatePattern ds = true ∧
        ty = JSVal.string ts ∧ ts ∈ validTypes ∧
        ∀ f ∈ fs, f.name ≠ ns) ∧
    ((addFestival fs name date ty).1 = -1 → (addFestival fs name date ty).2 = fs) ∧
    (∀ ns ds ts, name = JSVal.string ns → ns ≠ "" →
      date = JSVal.string ds → matchesDatePattern ds = true →
      ty = JSVal.string ts → ts ∈ validTypes →
      (∀ f ∈ fs, f.name ≠ ns) →
      addFestival fs name date ty =
        ((fs.length : Int) + 1, fs ++ [⟨ns, ds, ts⟩])) := by
  cases name with
  | string ns =>
      cases date with
      | string ds =>
          cases ty with
          | string ts =>
              by_cases hval : ns = "" ∨ ¬ matchesDatePattern ds ∨ ts ∉ validTypes
              · have hadd : addFestival fs (JSVal.string ns) (JSVal.string ds)
                    (JSVal.string ts) = (-1, fs) := by
                  rw [addFestival, if_pos hval]
                rw [hadd]
                refine ⟨⟨fun _ => ?_, fun _ => rfl⟩, fun _ => rfl, ?_⟩
                · rintro ⟨ns', ds', ts', hn, hne, hd, hm, ht, hts, hdup⟩
                  simp only [JSVal.string.injEq] at hn hd ht
                  subst hn; subst hd; subst ht
                  rcases hval with h | h | h
                  · exact hne h
                  · exact h hm
                  · exact h hts
                · intro ns' ds' ts' hn hne hd hm ht hts hdup
                  simp only [JSVal.string.injEq] at hn hd ht
                  subst hn; subst hd; subst ht
                  rcases hval with h | h | h
                  · exact absurd h hne
                  · exact absurd hm h
                  · exact absurd hts h
              · push_neg at hval
                obtain ⟨hne, hm, hts⟩ := hval
                by_cases hdup : fs.any (fun f => f.name = ns)
                · have hadd : addFestival fs (JSVal.string ns) (JSVal.string ds)
                      (JSVal.string ts) = (-1, fs) := by
                    rw [addFestival, if_neg (by simp [hne, hm, hts]), if_pos hdup]
                  rw [hadd]
                  obtain ⟨f, hf, hfn⟩ := List.any_eq_true.mp hdup
                  simp only [decide_eq_true_eq] at hfn
                  refine ⟨⟨fun _ => ?_, fun _ => rfl⟩, fun _ => rfl, ?_⟩
                  · rintro ⟨ns', ds', ts', hn, _, _, _, _, _, hall⟩
                    simp only [JSVal.string.injEq] at hn
                    subst hn
                    exact hall f hf hfn
                  · intro ns' ds' ts' hn _ _ _ _ _ hall
                    simp only [JSVal.string.injEq] at hn
                    subst hn
                    exact absurd hfn (hall f hf)
                · have hadd : addFestival fs (JSVal.string ns) (JSVal.string ds)
                      (JSVal.string ts) =
                      ((fs.length : Int) + 1, fs ++ [⟨ns, ds, ts⟩]) := by
                    rw [addFestival, if_neg (by simp [hne, hm, hts]), if_neg hdup]
                  rw [hadd]
                  have hallne : ∀ f ∈ fs, f.name ≠ ns := by
                    intro f hf hfn
                    have hfalse := List.any_eq_false.mp
                      (Bool.not_eq_true _ ▸ hdup) f hf
                    simp only [decide_eq_true_eq] at hfalse
                    exact hfalse hfn
                  have hnn : (0 : Int) ≤ (fs.length : Int) := by positivity
                  refine ⟨⟨fun habs => absurd habs (by omega), fun hno => ?_⟩,
                    fun habs => absurd habs (by omega), ?_⟩
                  · exact absurd ⟨ns, ds, ts, rfl, hne, rfl, hm, rfl, hts, hallne⟩ hno
                  · intro ns' ds' ts' hn _ hd _ ht _ _
                    simp only [JSVal.string.injEq] at hn hd ht
                    subst hn; subst hd; subst ht
                    rfl
          | undefined => simp [addFestival]
          | null => simp [addFestival]
          | boolean b => simp [addFestival]
          | number m => simp [addFestival]
      | undefined => simp [addFestival]
      | null => simp [addFestival]
      | boolean b => simp [addFestival]
      | number m => simp [addFestival]
  | undefined => simp [addFestival]
  | null => simp [addFestival]
  | boolean b => simp [addFestival]
  | number m => simp [addFestival]

/-- Claim C8 witness: adding Diwali to a fresh manager returns 1 and
appends the record; adding it again returns -1 and leaves the list
unchanged. -/
theorem addFestival_spec_witness :
    addFestival [] (JSVal.string "Diwali") (JSVal.string "2025-10-20")
      (JSVal.string "religious") =
      (1, [⟨"Diwali", "2025-10-20", "religious"⟩]) ∧
    (addFestival [⟨"Diwali", "2025-10-20", "religious"⟩]
      (JSVal.string "Diwali") (JSVal.string "2025-10-20")
      (JSVal.string "religious")).1 = -1 := by
  constructor
  · have h := (addFestival_spec [] (JSVal.string "Diwali")
      (JSVal.string "2025-10-20") (JSVal.string "religious")).2.2
      "Diwali" "2025-10-20" "religious" rfl (by decide) rfl (by decide) rfl
      (by decide) (by intro f hf; simp at hf)
    rw [h]
    decide
  · have h := (addFestival_spec [⟨"Diwali", "2025-10-20", "religious"⟩]
      (JSVal.string "Diwali") (JSVal.string "2025-10-20")
      (JSVal.string "religious")).1
    rw [h]
    intro habs
    obtain ⟨ns, ds, ts, hn, _, _, _, _, _, hall⟩ := habs
    simp only [JSVal.string.injEq] at hn
    subst hn
    exact hall ⟨"Diwali", "2025-10-20", "religious"⟩ (by simp) rfl

/-- Claim C2: on every reachable election instance, `getWinner()` returns
null exactly when no vote has been cast; otherwise it returns the
candidate holding the highest vote count, and on ties the first candidate
in candidate insertion order among those with the maximum count. -/
theorem getWinner_spec (cands : Option (List (Option Candidate)))
    (acts : List ElectionAction) :
    (getWinner (runElection (createElection cands) acts) = none ↔
      (runElection (createElection cands) acts).voted = []) ∧
    ((runElection (createElection cands) acts).voted ≠ [] →
      getWinner (runElection (createElection cands) acts) =
        firstMaxWinner (runElection (createElection cands) acts) ∧
      ∃ c, getWinner (runElection (createElection cands) acts) = some c) :=
  getWinner_char _ (electionInv_reachable cands acts)

/-- Claim C2 witness: after the demonstration trace (one registered voter,
one vote for C1) the winner is C1, the first candidate with the maximum
count. -/
theorem getWinner_spec_witness :
    getWinner demoState = firstMaxWinner demoState ∧
    getWinner demoState = some ⟨"C1", "Sarpanch Ram", "Janata"⟩ := by
  have h := (getWinner_spec demoCands demoActs).2 (by decide)
  exact ⟨h.1, by decide⟩

/-- Claim C10: in every state of an election instance reachable from
`createElection` by `registerVoter` and `castVote` calls, the voters who
voted form a duplicate-free subset of the registered voters, every known
candidate has a non-negative integer vote count, and the counts sum to
the number of distinct voters who voted. -/
theorem election_invariants (cands : Option (List (Option Candidate)))
    (acts : List ElectionAction) :
    (∀ x ∈ (runElection (createElection cands) acts).voted,
      x ∈ (runElection (createElection cands) acts).registered) ∧
    (runElection (createElection cands) acts).voted.Nodup ∧
    (∀ p ∈ (runElection (createElection cands) acts).candidateMap,
      ∃ n, lookupA (runElection (createElection cands) acts).votes p.1 = some n ∧
        0 ≤ n) ∧
    ((runElection (createElection cands) acts).votes.map Prod.snd).sum =
      ((runElection (createElection cands) acts).voted.length : Int) := by
  obtain ⟨hsub, hnd, hkeys, hknd, hpos, hsum, hid⟩ := electionInv_reachable cands acts
  refine ⟨hsub, hnd, ?_, hsum⟩
  intro p hp
  have hk : p.1 ∈ (runElection (createElection cands) acts).votes.map Prod.fst := by
    rw [hkeys]
    exact List.mem_map_of_mem Prod.fst hp
  obtain ⟨n, hn⟩ := lookupA_isSome_of_mem_keys _ _ hk
  exact ⟨n, hn, hpos _ (mem_of_lookupA _ _ _ hn)⟩

/-- Claim C10 witness: the invariants instantiated on the demonstration
trace; in particular the counts sum to the one distinct voter. -/
theorem election_invariants_witness :
    demoState.voted.Nodup ∧
    (demoState.votes.map Prod.snd).sum = (demoState.voted.length : Int) := by
  obtain ⟨_, hnd, _, hsum⟩ := election_invariants demoCands demoActs
  exact ⟨hnd, hsum⟩

theorem strLeB_eq_decide (a b : String) : strLeB a b = decide (a ≤ b) := by
  by_cases h : a ≤ b
  · rw [(strLeB_iff a b).mpr h, decide_eq_true h]
  · have hne : strLeB a b ≠ true := fun ht => h ((strLeB_iff a b).mp ht)
    rw [Bool.eq_false_iff.mpr hne, decide_eq_false h]

theorem dateCmp_le_iff (a b : Festival) : dateCmp a b ≤ 0 ↔ a.date ≤ b.date := by
  rw [dateCmp]
  by_cases h1 : strLtB a.date b.date = true
  · rw [if_pos h1]
    exact iff_of_true (by norm_num) (le_of_lt ((strLtB_iff _ _).mp h1))
  · rw [if_neg h1]
    by_cases h2 : a.date = b.date
    · rw [if_pos h2]
      exact iff_of_true (le_refl 0) (le_of_eq h2)
    · rw [if_neg h2]
      have hnlt : ¬ a.date < b.date := fun hlt => h1 ((strLtB_iff _ _).mpr hlt)
      have hba : b.date < a.date :=
        lt_of_le_of_ne (not_lt.mp hnlt) (fun he => h2 he.symm)
      exact iff_of_false (by norm_num) (not_le.mpr hba)

theorem dateCmp_eq_zero_of_eq (a b : Festival) (h : a.date = b.date) :
    dateCmp a b = 0 := by
  rw [dateCmp]
  have hnlt : ¬ (strLtB a.date b.date = true) := fun hlt =>
    absurd ((strLtB_iff _ _).mp hlt) (h ▸ lt_irrefl a.date)
  rw [if_neg hnlt, if_pos h]

/-- Claim C9: `getUpcoming(currentDate, n)` returns the empty list when
`currentDate` is not a string matching `YYYY-MM-DD`; otherwise it returns
at most `n` records (default 3): the first `n` of the festivals whose date
is lexically at least `currentDate`, sorted ascending by date (ties kept
in insertion order). -/
theorem getUpcoming_spec (fs : List Festival) (cd : JSVal) (n : Option Nat) :
    (isValidDateStr cd = false → getUpcoming fs cd n = []) ∧
    (∀ s, cd = JSVal.string s → matchesDatePattern s = true →
      ∃ sorted : List Festival,
        List.Perm sorted (fs.filter (fun f => s ≤ f.date)) ∧
        sorted.Pairwise (fun a b => a.date ≤ b.date) ∧
        (∀ d, sorted.filter (fun f => f.date = d) =
          (fs.filter (fun f => s ≤ f.date)).filter (fun f => f.date = d)) ∧
        getUpcoming fs cd n = sorted.take (n.getD 3) ∧
        (getUpcoming fs cd n).length ≤ n.getD 3) := by
  constructor
  · intro hbad
    cases cd with
    | string s =>
        simp only [isValidDateStr] at hbad
        simp only [getUpcoming]
        rw [if_pos (by simp [hbad])]
    | undefined => rfl
    | null => rfl
    | boolean b => rfl
    | number m => rfl
  · intro s hcd hm
    subst hcd
    have hflt : fs.filter (fun f => strLeB s f.date) =
        fs.filter (fun f => decide (s ≤ f.date)) := by
      apply List.filter_congr
      intro f _
      exact strLeB_eq_decide s f.date
    have hup : getUpcoming fs (JSVal.string s) n =
        (jsSort dateCmp (fs.filter (fun f => strLeB s f.date))).take (n.getD 3) := by
      simp only [getUpcoming]
      rw [if_neg (by simp [hm])]
    refine ⟨jsSort dateCmp (fs.filter (fun f => strLeB s f.date)), ?_, ?_, ?_, hup, ?_⟩
    · rw [← hflt]
      exact jsSort_perm dateCmp _
    · have hs := jsSort_sorted dateCmp (fs.filter (fun f => strLeB s f.date))
        (fun a b c h1 h2 => (dateCmp_le_iff a c).mpr
          (le_trans ((dateCmp_le_iff a b).mp h1) ((dateCmp_le_iff b c).mp h2)))
        (fun a b => by
          rcases le_total a.date b.date with h | h
          · exact Or.inl ((dateCmp_le_iff a b).mpr h)
          · exact Or.inr ((dateCmp_le_iff b a).mpr h))
      exact hs.imp (fun h => (dateCmp_le_iff _ _).mp h)
    · intro d
      rw [← hflt]
      apply jsSort_filter_ties
      intro a b ha hb
      simp only [decide_eq_true_eq] at ha hb
      rw [dateCmp_eq_zero_of_eq a b (ha.trans hb.symm)]
    · rw [hup]
      exact List.length_take_le _ _

/-- Claim C9 witness: the spec's example: among Diwali (2025-10-20) and
Republic Day (2025-01-26), the single upcoming festival after 2025-01-01
is Republic Day, and the result respects the requested bound of one. -/
theorem getUpcoming_spec_witness :
    getUpcoming demoFestivals (JSVal.string "2025-01-01") (some 1) =
      [⟨"Republic Day", "2025-01-26", "national"⟩] ∧
    (getUpcoming demoFestivals (JSVal.string "2025-01-01") (some 1)).length ≤ 1 := by
  refine ⟨by decide, ?_⟩
  obtain ⟨sorted, _, _, _, _, hlen⟩ :=
    (getUpcoming_spec demoFestivals (JSVal.string "2025-01-01") (some 1)).2
      "2025-01-01" rfl (by decide)
  exact hlen

/-- Claim C4: on every reachable election instance, `getResults()` without
a comparator is a permutation of the one-row-per-known-candidate record
list (with duplicate-free candidate ids), ordered by descending vote count
with ties kept in candidate-map insertion order; a supplied comparator
determines the ordering instead (the result is the same records sorted by
that comparator). -/
theorem getResults_spec (cands : Option (List (Option Candidate)))
    (acts : List ElectionAction) :
    List.Perm (getResults (runElection (createElection cands) acts) none)
      (resultsOf (runElection (createElection cands) acts)) ∧
    ((resultsOf (runElection (createElection cands) acts)).map
      (fun r => r.id)).Nodup ∧
    (getResults (runElection (createElection cands) acts) none).Pairwise
      (fun a b => b.votes ≤ a.votes) ∧
    (∀ v : Int,
      (getResults (runElection (createElection cands) acts) none).filter
        (fun r => r.votes = v) =
      (resultsOf (runElection (createElection cands) acts)).filter
        (fun r => r.votes = v)) ∧
    (∀ f, List.Perm (getResults (runElection (createElection cands) acts) (some f))
      (resultsOf (runElection (createElection cands) acts))) ∧
    (∀ f, (∀ a b c, f a b ≤ 0 → f b c ≤ 0 → f a c ≤ 0) →
      (∀ a b, f a b ≤ 0 ∨ f b a ≤ 0) →
      (getResults (runElection (createElection cands) acts) (some f)).Pairwise
        (fun a b => f a b ≤ 0)) := by
  obtain ⟨hsub, hnd, hkeys, hknd, hpos, hsum, hid⟩ := electionInv_reachable cands acts
  refine ⟨jsSort_perm _ _, ?_, ?_, ?_, fun f => jsSort_perm _ _, fun f => jsSort_sorted f _⟩
  · rw [resultsOf, List.map_map]
    have : ((fun r : ResultRow => r.id) ∘ fun p : String × Candidate =>
        (⟨p.2.id, p.2.name, p.2.party,
          (lookupA (runElection (createElection cands) acts).votes p.1).getD 0⟩ :
          ResultRow)) = fun p => p.2.id := rfl
    rw [this, List.map_congr_left hid]
    exact hknd
  · have hs := jsSort_sorted (fun a b : ResultRow => b.votes - a.votes)
      (resultsOf (runElection (createElection cands) acts))
      (fun a b c h1 h2 => by dsimp only at h1 h2 ⊢; omega)
      (fun a b => by dsimp only; omega)
    exact hs.imp (fun h => by dsimp only at h ⊢; omega)
  · intro v
    apply jsSort_filter_ties
    intro a b ha hb
    simp only [decide_eq_true_eq] at ha hb
    omega

/-- Claim C4 witness: after the demonstration trace the default ordering
puts C1 (1 vote) before C2 (0 votes), and a supplied ascending comparator
determines the ordering instead. -/
theorem getResults_spec_witness :
    getResults demoState none =
      [⟨"C1", "Sarpanch Ram", "Janata", 1⟩, ⟨"C2", "Pradhan Sita", "Lok", 0⟩] ∧
    (getResults demoState (some demoCmp)).Pairwise
      (fun a b => demoCmp a b ≤ 0) := by
  refine ⟨by decide, ?_⟩
  exact (getResults_spec demoCands demoActs).2.2.2.2.2 demoCmp
    (fun a b c h1 h2 => by simp only [demoCmp] at h1 h2 ⊢; omega)
    (fun a b => by simp only [demoCmp]; omega)
